import Mathlib

/-!
Shallow embedding of `src/predictor.cc` (treelite batch prediction engine):
batch views, the row materializer, the parallel predict loop, the output
reshaper, and the predictor load/free lifecycle, together with theorems
settling the specification claims about them.

Floating-point values are modelled abstractly: the code never performs
float arithmetic, only copies values, tests for NaN (`CheckNAN`) and
compares against the missing-value sentinel with IEEE `!=`.  An abstract
value is therefore either NaN or a non-NaN payload (an integer code), which
captures IEEE copy/compare semantics exactly for the operations used.
-/

namespace Treelite

/-- An abstract floating-point value: NaN, or a non-NaN payload. -/
inductive FVal where
  | nan : FVal
  | val : Int → FVal
deriving DecidableEq

/-- Modelled from the spec: `treelite::common::math::CheckNAN` (from
`common/math.h`, not part of this source file) tests whether a value is NaN. -/
def CheckNAN : FVal → Bool
  | .nan => true
  | .val _ => false

/-- IEEE `!=` as used in `row[j] != missing_value`: NaN compares unequal to
everything (including itself); non-NaN values compare by payload. -/
def fneq : FVal → FVal → Bool
  | .nan, _ => true
  | _, .nan => true
  | .val a, .val b => a != b

/-- One feature slot (`treelite::Predictor::Entry`): either the missing
marker (`missing = -1`, how the scratch vector is initialized and reset) or a
present value (`fvalue` written). -/
inductive Entry where
  | missing : Entry
  | fvalue : FVal → Entry
deriving DecidableEq

/-- A thread-local scratch slice in its initialized state: every slot holds
the missing marker (the vector is constructed with `{-1}` for all
`nthread * num_col` entries). -/
def cleanSlice : Nat → Entry := fun _ => Entry.missing

/-- Store into a scratch slice at one slot (`inst[off + c] = v`). -/
def updE (s : Nat → Entry) (c : Nat) (v : Entry) : Nat → Entry :=
  fun x => if x = c then v else s x

/-- Store into the output buffer at one slot (`out_pred[p] = v`). -/
def updF (o : Nat → FVal) (p : Nat) (v : FVal) : Nat → FVal :=
  fun x => if x = p then v else o x

/-- `treelite::CSRBatch`: compressed sparse row view over caller data. -/
structure CSRBatch where
  data : Nat → FVal
  col_ind : Nat → Nat
  row_ptr : Nat → Nat
  num_row : Nat
  num_col : Nat

/-- `treelite::DenseBatch`: row-major dense view with a missing-value sentinel. -/
structure DenseBatch where
  data : Nat → FVal
  missing_value : FVal
  num_row : Nat
  num_col : Nat

/-- The index range `[row_ptr[rid], row_ptr[rid+1])` of one CSR row. -/
def csrRowIdx (b : CSRBatch) (rid : Nat) : List Nat :=
  List.range' (b.row_ptr rid) (b.row_ptr (rid + 1) - b.row_ptr rid)

/-- The loop `for i in [ibegin, iend): inst[off + col_ind[i]].fvalue = data[i]`. -/
def materializeCSRCols (colf : Nat → Nat) (dataf : Nat → FVal) :
    List Nat → (Nat → Entry) → (Nat → Entry)
  | [], s => s
  | i :: is, s => materializeCSRCols colf dataf is (updE s (colf i) (Entry.fvalue (dataf i)))

/-- Materialize one CSR row into a scratch slice. -/
def materializeCSRRow (b : CSRBatch) (rid : Nat) (s : Nat → Entry) : Nat → Entry :=
  materializeCSRCols b.col_ind b.data (csrRowIdx b rid) s

/-- The loop `for i in [ibegin, iend): inst[off + col_ind[i]].missing = -1`. -/
def cleanupCSRCols (colf : Nat → Nat) : List Nat → (Nat → Entry) → (Nat → Entry)
  | [], s => s
  | i :: is, s => cleanupCSRCols colf is (updE s (colf i) Entry.missing)

/-- Reset the slots touched by one CSR row back to missing. -/
def cleanupCSRRow (b : CSRBatch) (rid : Nat) (s : Nat → Entry) : Nat → Entry :=
  cleanupCSRCols b.col_ind (csrRowIdx b rid) s

/-- The dense per-column loop: NaN data demands a NaN sentinel (else the
`CHECK(nan_missing)` input-format error fires); a non-NaN value is written
unless it equals a non-NaN sentinel. -/
def materializeDenseCols (nan_missing : Bool) (missing_value : FVal) (rowf : Nat → FVal) :
    List Nat → (Nat → Entry) → Except Unit (Nat → Entry)
  | [], s => .ok s
  | j :: js, s =>
    if CheckNAN (rowf j) then
      if nan_missing then materializeDenseCols nan_missing missing_value rowf js s
      else .error ()
    else if nan_missing || fneq (rowf j) missing_value then
      materializeDenseCols nan_missing missing_value rowf js
        (updE s j (Entry.fvalue (rowf j)))
    else materializeDenseCols nan_missing missing_value rowf js s

/-- Materialize one dense row (`row = &data[rid * num_col]`) into a slice. -/
def materializeDenseRow (b : DenseBatch) (rid : Nat) (s : Nat → Entry) :
    Except Unit (Nat → Entry) :=
  materializeDenseCols (CheckNAN b.missing_value) b.missing_value
    (fun j => b.data (rid * b.num_col + j)) (List.range b.num_col) s

/-- The loop `for j in [0, num_col): inst[off + j].missing = -1`. -/
def cleanupDenseCols : List Nat → (Nat → Entry) → (Nat → Entry)
  | [], s => s
  | j :: js, s => cleanupDenseCols js (updE s j Entry.missing)

/-- Reset all `num_col` slots of a dense slice back to missing. -/
def cleanupDenseRow (num_col : Nat) (s : Nat → Entry) : Nat → Entry :=
  cleanupDenseCols (List.range num_col) s

/-- Whether the dense row `rid` trips the in-loop input-format check: some
element is NaN while the sentinel is not NaN. -/
def badRow (b : DenseBatch) (rid : Nat) : Bool :=
  !CheckNAN b.missing_value &&
    (List.range b.num_col).any fun j => CheckNAN (b.data (rid * b.num_col + j))

/-- The per-row prediction callback handed to `PredLoop`: given a row id and
the materialized entries, it yields the writes it performs on the shared
output buffer (index/value pairs) and the count it returns. -/
def PredFunc : Type :=
  Nat → (Nat → Entry) → List (Nat × FVal) × Nat

/-- Consecutive writes starting at `base`, one per produced value: how the
multi-class computation unit fills `&out_pred[rid * num_output_group]`
(spec: it writes `count` floats into the given output slot and returns
`count`). -/
def strideWrites (base : Nat) : List FVal → List (Nat × FVal)
  | [] => []
  | v :: vs => (base, v) :: strideWrites (base + 1) vs

/-- The multi-class calling shape built in `PredictBatch_` for
`num_output_group > 1`: call the unit on the entries, let it write into
`&out_pred[rid * num_output_group]`, and return its produced count. -/
def mcFunc (num_output_group : Nat) (pred_margin : Bool)
    (u : (Nat → Entry) → Bool → List FVal) : PredFunc :=
  fun rid inst =>
    (strideWrites (rid * num_output_group) (u inst pred_margin), (u inst pred_margin).length)

/-- The single-output calling shape: `out_pred[rid] = pred_func(inst, margin); return 1`. -/
def singleFunc (pred_margin : Bool) (u : (Nat → Entry) → Bool → FVal) : PredFunc :=
  fun rid inst => ([(rid, u inst pred_margin)], 1)

/-- One iteration of a `PredLoop` body: materialize the row, invoke the
callback, reset the touched slots.  `none` models a fatal in-loop check
(the dense NaN input-format error), which aborts the run. -/
def StepFun : Type :=
  Nat → (Nat → Entry) → Option ((List (Nat × FVal) × Nat) × (Nat → Entry))

/-- The CSR `PredLoop` body (lines 72-84 of predictor.cc). -/
def csrStep (b : CSRBatch) (f : PredFunc) : StepFun := fun rid slice =>
  let inst := materializeCSRRow b rid slice
  some (f rid inst, cleanupCSRRow b rid inst)

/-- The dense `PredLoop` body (lines 108-124 of predictor.cc). -/
def denseStep (b : DenseBatch) (f : PredFunc) : StepFun := fun rid slice =>
  match materializeDenseRow b rid slice with
  | .error _ => none
  | .ok inst => some (f rid inst, cleanupDenseRow b.num_col inst)

/-- What one worker thread of the parallel loop produced: its output-buffer
writes, its contribution to the reduced total, whether it hit a fatal
in-loop check, and the final state of its scratch slice. -/
structure ThreadResult where
  writes : List (Nat × FVal)
  total : Nat
  err : Bool
  slice : Nat → Entry

/-- One worker's traversal of its assigned rows, in increasing order, on its
own scratch slice.  A fatal in-loop check stops the worker. -/
def runThread (step : StepFun) : List Nat → (Nat → Entry) → ThreadResult
  | [], s => ⟨[], 0, false, s⟩
  | rid :: rest, s =>
    match step rid s with
    | none => ⟨[], 0, true, s⟩
    | some (r, s1) =>
      let t := runThread step rest s1
      ⟨r.1 ++ t.writes, r.2 + t.total, t.err, t.slice⟩

/-- Chunk size of OpenMP `schedule(static)`: rows divided into `nthread`
contiguous chunks of (up to) `ceil(num_row / nthread)` rows each. -/
def chunkSize (num_row nthread : Nat) : Nat :=
  (num_row + nthread - 1) / nthread

/-- First row of thread `t`'s chunk (clamped to `num_row`). -/
def chunkStart (num_row nthread t : Nat) : Nat :=
  min (t * chunkSize num_row nthread) num_row

/-- The contiguous row range statically assigned to thread `t`. -/
def staticChunk (num_row nthread t : Nat) : List Nat :=
  List.range' (chunkStart num_row nthread t)
    (chunkStart num_row nthread (t + 1) - chunkStart num_row nthread t)

/-- The `CHECK` at the head of both `PredLoop` instantiations, on an LP64
platform where `sizeof(size_t) = sizeof(int64_t) = 8`:
`sizeof(size_t) < sizeof(int64_t) || num_row <= numeric_limits<int64_t>::max()`. -/
def rowBoundCheck (num_row : Nat) : Bool :=
  decide (8 < 8) || decide (num_row ≤ 2 ^ 63 - 1)

/-- Apply a list of output-buffer writes in order (later writes win). -/
def applyWrites : List (Nat × FVal) → (Nat → FVal) → (Nat → FVal)
  | [], o => o
  | w :: ws, o => applyWrites ws (updF o w.1 w.2)

/-- Outcome of `PredLoop`: final output buffer (all performed writes
applied), the reduced total output size, and whether a fatal check fired. -/
structure LoopResult where
  out : Nat → FVal
  total : Nat
  err : Bool

/-- `PredLoop`: check the row-count bound, then run the statically scheduled
team, each worker on its own slice of the scratch buffer; the output buffer
collects every worker's (row-disjoint) writes and the total is reduced by
summation. -/
def predLoop (num_row : Nat) (step : StepFun) (nthread : Nat) (out : Nat → FVal) :
    LoopResult :=
  if rowBoundCheck num_row then
    let rs := (List.range nthread).map fun t =>
      runThread step (staticChunk num_row nthread t) cleanSlice
    { out := applyWrites ((rs.map fun r => r.writes).flatten) out
      total := (rs.map fun r => r.total).sum
      err := rs.any fun r => r.err }
  else
    { out := out, total := 0, err := true }

/-- The reshape preconditions of `PredictBatch_` (lines 177-181):
`CHECK_GT(num_output_group, 1); CHECK_EQ(query_result_size % num_row, 0);
CHECK_GT(k, 0); CHECK_LT(k, num_output_group)` for `k = query_result_size / num_row`. -/
def reshapeCheck (num_row num_output_group query_result_size : Nat) : Bool :=
  decide (1 < num_output_group) && decide (query_result_size % num_row = 0) &&
    decide (0 < query_result_size / num_row) &&
    decide (query_result_size / num_row < num_output_group)

/-- The inner reshape loop over `a` for one row `r`:
`out_pred[r*k + a] = out_pred[r*num_output_group + a]`. -/
def compactRowCols (g k r : Nat) : List Nat → (Nat → FVal) → (Nat → FVal)
  | [], o => o
  | a :: as, o => compactRowCols g k r as (updF o (r * k + a) (o (r * g + a)))

/-- The outer reshape loop over rows, in increasing row order. -/
def compactRows (g k : Nat) : List Nat → (Nat → FVal) → (Nat → FVal)
  | [], o => o
  | r :: rs, o => compactRows g k rs (compactRowCols g k r (List.range k) o)

/-- The in-place reshaping (lines 182-187): compact the first `k` slots of
each row from stride `num_output_group` down to stride `k`. -/
def compact (num_row g k : Nat) (o : Nat → FVal) : Nat → FVal :=
  compactRows g k (List.range num_row) o

/-- Error discriminants of a batch prediction call. -/
inductive PredErr where
  | notLoaded : PredErr
  | loopFail : PredErr
  | reshapeFail : PredErr
deriving DecidableEq

/-- Result of `PredictBatch_`: the output buffer after all performed writes,
the returned size, and the fatal error (if any). -/
structure PBResult where
  out : Nat → FVal
  ret : Nat
  error : Option PredErr

/-- `PredictBatch_` after the not-loaded check and thread-count rewrite: run
the loop, then reshape when the produced size is smaller than the expected
one. -/
def PredictBatchLoaded (num_row : Nat) (step : StepFun) (nthread : Nat)
    (num_output_group expected_query_result_size : Nat) (out_pred : Nat → FVal) :
    PBResult :=
  let L := predLoop num_row step nthread out_pred
  if L.err then { out := L.out, ret := 0, error := some .loopFail }
  else if L.total < expected_query_result_size then
    if reshapeCheck num_row num_output_group L.total then
      { out := compact num_row num_output_group (L.total / num_row) L.out
        ret := L.total, error := none }
    else { out := L.out, ret := 0, error := some .reshapeFail }
  else { out := L.out, ret := L.total, error := none }

/-- The thread-count rewrite at the head of `PredictBatch_`:
`nthread = (nthread == 0) ? max_thread : std::min(nthread, max_thread)`.
`max_thread` stands for the platform parallelism ceiling
(modelled from the spec: `omp_get_max_threads()` is external). -/
def effectiveNthread (nthread max_thread : Int) : Int :=
  if nthread = 0 then max_thread else min nthread max_thread

/-- The resolved prediction entry point: multi-class shape
`size_t (*)(Entry*, int, float*)` or single-output shape `float (*)(Entry*, int)`. -/
def PredFuncHandle : Type :=
  ((Nat → Entry) → Bool → List FVal) ⊕ ((Nat → Entry) → Bool → FVal)

/-- The calling-shape dispatch of `PredictBatch_`: reinterpret the loaded
handle according to `num_output_group`.  A shape mismatch is undefined
behaviour in the source (unreachable through `Load`); it is modelled as a
callback that writes nothing. -/
def mkPredFunc (num_output_group : Nat) (pred_margin : Bool) (h : PredFuncHandle) :
    PredFunc :=
  if 1 < num_output_group then
    match h with
    | .inl mc => mcFunc num_output_group pred_margin mc
    | .inr _ => fun _ _ => ([], 0)
  else
    match h with
    | .inr sf => singleFunc pred_margin sf
    | .inl _ => fun _ _ => ([], 0)

/-- `PredictBatch_` (lines 130-190): reject when no prediction function is
loaded, rewrite the thread count, build the per-row callback for the loaded
calling shape, run the loop, and reshape if needed.  `mkStep` abstracts the
batch kind (CSR or dense `PredLoop` body). -/
def PredictBatch_ (mkStep : PredFunc → StepFun) (num_row : Nat)
    (nthread max_thread : Int) (pred_margin : Bool) (num_output_group : Nat)
    (pred_func_handle : Option PredFuncHandle)
    (expected_query_result_size : Nat) (out_pred : Nat → FVal) : PBResult :=
  match pred_func_handle with
  | none => { out := out_pred, ret := 0, error := some .notLoaded }
  | some h =>
    PredictBatchLoaded num_row (mkStep (mkPredFunc num_output_group pred_margin h))
      (effectiveNthread nthread max_thread).toNat
      num_output_group expected_query_result_size out_pred

/-- A loadable computation unit image: the three named symbols it may
export.  `get_num_output_group` is modelled by the value it returns. -/
structure Library where
  get_num_output_group : Option Nat
  predict_multiclass : Option ((Nat → Entry) → Bool → List FVal)
  predict : Option ((Nat → Entry) → Bool → FVal)

/-- `treelite::Predictor` state: the open image handle, and the resolved
query/prediction entry points.  `lib_open` records whether the image is
currently open (`CloseLibrary` is an external effect on the image; it does
not touch the member fields). -/
structure Predictor where
  lib_handle : Option Library
  lib_open : Bool
  query_func_handle : Option Nat
  pred_func_handle : Option PredFuncHandle
  num_output_group : Nat

/-- The constructor: both handles null.  (`num_output_group_` is an
uninitialized member in the source; 0 stands for its indeterminate value.) -/
def Predictor.init : Predictor :=
  { lib_handle := none, lib_open := false, query_func_handle := none
    pred_func_handle := none, num_output_group := 0 }

/-- `Predictor::Load`: open the image (`none` = `OpenLibrary` failed),
resolve `get_num_output_group`, reject a zero group count, then resolve the
entry point matching the output cardinality.  Every `CHECK` failure is a
fatal load error. -/
def Predictor.load (_p : Predictor) (image : Option Library) : Except Unit Predictor :=
  match image with
  | none => .error ()
  | some lib =>
    match lib.get_num_output_group with
    | none => .error ()
    | some g =>
      if g = 0 then .error ()
      else if 1 < g then
        match lib.predict_multiclass with
        | none => .error ()
        | some f =>
          .ok { lib_handle := some lib, lib_open := true, query_func_handle := some g
                pred_func_handle := some (.inl f), num_output_group := g }
      else
        match lib.predict with
        | none => .error ()
        | some f =>
          .ok { lib_handle := some lib, lib_open := true, query_func_handle := some g
                pred_func_handle := some (.inr f), num_output_group := g }

/-- `Predictor::Free`: `CloseLibrary(lib_handle_)` closes the image and
nothing else — no member field is cleared. -/
def Predictor.free (p : Predictor) : Predictor :=
  { p with lib_open := false }

/-- Modelled from the spec: `QueryResultSize` (declared in the header, not
in this source file) returns the full unreshaped capacity
`num_row * max(1, num_output_group)`. -/
def queryResultSize (num_row num_output_group : Nat) : Nat :=
  num_row * max 1 num_output_group

/-- `Predictor::PredictBatch` for a CSR batch. -/
def Predictor.predictBatchCSR (p : Predictor) (b : CSRBatch)
    (nthread max_thread : Int) (pred_margin : Bool) (out_pred : Nat → FVal) : PBResult :=
  PredictBatch_ (fun f => csrStep b f) b.num_row nthread max_thread pred_margin
    p.num_output_group p.pred_func_handle
    (queryResultSize b.num_row p.num_output_group) out_pred

/-- `Predictor::PredictBatch` for a dense batch. -/
def Predictor.predictBatchDense (p : Predictor) (b : DenseBatch)
    (nthread max_thread : Int) (pred_margin : Bool) (out_pred : Nat → FVal) : PBResult :=
  PredictBatch_ (fun f => denseStep b f) b.num_row nthread max_thread pred_margin
    p.num_output_group p.pred_func_handle
    (queryResultSize b.num_row p.num_output_group) out_pred

/-! ### Basic lemmas on slice and buffer stores -/

@[simp] theorem updE_self (s : Nat → Entry) (c : Nat) (v : Entry) : updE s c v c = v := by
  simp [updE]

theorem updE_ne (s : Nat → Entry) (c x : Nat) (v : Entry) (h : x ≠ c) :
    updE s c v x = s x := by
  simp [updE, h]

@[simp] theorem updF_self (o : Nat → FVal) (p : Nat) (v : FVal) : updF o p v p = v := by
  simp [updF]

theorem updF_ne (o : Nat → FVal) (p x : Nat) (v : FVal) (h : x ≠ p) :
    updF o p v x = o x := by
  simp [updF, h]

/-! ### Row materializer: CSR characterization -/

/-- A slot whose column is never listed is untouched by CSR materialization. -/
theorem materializeCSRCols_ne (colf : Nat → Nat) (dataf : Nat → FVal) (l : List Nat)
    (s : Nat → Entry) (c : Nat) (h : ∀ i ∈ l, colf i ≠ c) :
    materializeCSRCols colf dataf l s c = s c := by
  induction l generalizing s with
  | nil => rfl
  | cons i is ih =>
    simp only [materializeCSRCols]
    rw [ih _ fun j hj => h j (List.mem_cons_of_mem i hj)]
    exact updE_ne _ _ _ _ fun hc => h i (List.mem_cons_self i is) hc.symm

/-- A listed column ends up present with its data value, provided no other
listed index maps to the same column. -/
theorem materializeCSRCols_mem (colf : Nat → Nat) (dataf : Nat → FVal) (l : List Nat)
    (s : Nat → Entry) (i : Nat) (hi : i ∈ l)
    (huniq : ∀ i' ∈ l, colf i' = colf i → i' = i) :
    materializeCSRCols colf dataf l s (colf i) = Entry.fvalue (dataf i) := by
  induction l generalizing s with
  | nil => cases hi
  | cons a as ih =>
    simp only [materializeCSRCols]
    by_cases hia : i ∈ as
    · exact ih _ hia fun i' hi' he =>
        huniq i' (List.mem_cons_of_mem a hi') he
    · have hai : a = i := by
        rcases List.mem_cons.mp hi with h | h
        · exact h.symm
        · exact absurd h hia
      subst hai
      rw [materializeCSRCols_ne]
      · simp
      · intro i' hi' he
        exact hia (huniq i' (List.mem_cons_of_mem a hi') he ▸ hi')

/-- Full characterization of CSR cleanup: listed columns become missing,
the rest are untouched. -/
theorem cleanupCSRCols_eq (colf : Nat → Nat) (l : List Nat) (s : Nat → Entry) (c : Nat) :
    cleanupCSRCols colf l s c =
      if ∃ i ∈ l, colf i = c then Entry.missing else s c := by
  induction l generalizing s with
  | nil => simp [cleanupCSRCols]
  | cons a as ih =>
    simp only [cleanupCSRCols]
    rw [ih]
    by_cases has : ∃ i ∈ as, colf i = c
    · rw [if_pos has, if_pos ⟨has.choose, List.mem_cons_of_mem a has.choose_spec.1,
        has.choose_spec.2⟩]
    · rw [if_neg has]
      by_cases hac : colf a = c
      · rw [if_pos ⟨a, List.mem_cons_self a as, hac⟩]
        simp [updE, hac]
      · rw [if_neg (by rintro ⟨i, hi, he⟩
                       rcases List.mem_cons.mp hi with rfl | h
                       · exact hac he
                       · exact has ⟨i, h, he⟩),
            updE_ne _ _ _ _ fun h => hac h.symm]

/-- Materialize-then-cleanup restores a clean slice: the cleanup loop resets
exactly the slots the materialize loop touched. -/
theorem cleanupCSRRow_materialize_clean (b : CSRBatch) (rid : Nat) :
    cleanupCSRRow b rid (materializeCSRRow b rid cleanSlice) = cleanSlice := by
  funext c
  unfold cleanupCSRRow materializeCSRRow
  rw [cleanupCSRCols_eq]
  by_cases h : ∃ i ∈ csrRowIdx b rid, b.col_ind i = c
  · rw [if_pos h]; rfl
  · rw [if_neg h, materializeCSRCols_ne _ _ _ _ _ fun i hi he => h ⟨i, hi, he⟩]

/-- The slots a CSR row never lists keep whatever marker they held before
the row was processed (materialize and cleanup both skip them). -/
theorem csr_untouched_persist (b : CSRBatch) (rid : Nat) (s : Nat → Entry) (c : Nat)
    (h : ∀ i ∈ csrRowIdx b rid, b.col_ind i ≠ c) :
    cleanupCSRRow b rid (materializeCSRRow b rid s) c = s c := by
  unfold cleanupCSRRow materializeCSRRow
  rw [cleanupCSRCols_eq, if_neg (by rintro ⟨i, hi, he⟩; exact h i hi he),
    materializeCSRCols_ne _ _ _ _ _ h]

/-- The CSR loop body never fails, and restores a clean slice. -/
theorem csrStep_clean (b : CSRBatch) (f : PredFunc) (rid : Nat) :
    csrStep b f rid cleanSlice =
      some (f rid (materializeCSRRow b rid cleanSlice), cleanSlice) := by
  simp only [csrStep]
  rw [cleanupCSRRow_materialize_clean]

/-! ### Row materializer: dense characterization -/

/-- With a NaN sentinel the dense column loop never fails: NaN data is
skipped (left missing), every non-NaN value is written. -/
theorem materializeDenseCols_nanMissing (mv : FVal) (rowf : Nat → FVal) (l : List Nat)
    (s : Nat → Entry) :
    materializeDenseCols true mv rowf l s =
      .ok (fun c => if c ∈ l ∧ CheckNAN (rowf c) = false then Entry.fvalue (rowf c)
                    else s c) := by
  induction l generalizing s with
  | nil => rfl
  | cons j js ih =>
    simp only [materializeDenseCols]
    by_cases hj : CheckNAN (rowf j) = true
    · rw [if_pos hj, if_pos (by trivial), ih]
      refine congrArg Except.ok (funext fun c => ?_)
      by_cases hc : c = j
      · subst hc; simp [hj]
      · simp [List.mem_cons, hc]
    · have hj' : CheckNAN (rowf j) = false := by simpa using hj
      rw [if_neg hj, if_pos (by simp), ih]
      refine congrArg Except.ok (funext fun c => ?_)
      by_cases hc : c = j
      · subst hc; simp [List.mem_cons, hj', updE]
      · simp [List.mem_cons, hc, updE_ne _ _ _ _ hc]

/-- With a non-NaN sentinel and no NaN among the listed columns, the loop
succeeds: a value equal to the sentinel stays missing, anything else is
written. -/
theorem materializeDenseCols_finite (mv : FVal) (rowf : Nat → FVal) (l : List Nat)
    (s : Nat → Entry) (hnn : ∀ j ∈ l, CheckNAN (rowf j) = false) :
    materializeDenseCols false mv rowf l s =
      .ok (fun c => if c ∈ l ∧ fneq (rowf c) mv = true then Entry.fvalue (rowf c)
                    else s c) := by
  induction l generalizing s with
  | nil => rfl
  | cons j js ih =>
    have hj : CheckNAN (rowf j) = false := hnn j (List.mem_cons_self j js)
    have hjs : ∀ i ∈ js, CheckNAN (rowf i) = false :=
      fun i hi => hnn i (List.mem_cons_of_mem j hi)
    simp only [materializeDenseCols]
    rw [if_neg (by simp [hj])]
    by_cases hne : fneq (rowf j) mv = true
    · rw [if_pos (by simp [hne]), ih _ hjs]
      refine congrArg Except.ok (funext fun c => ?_)
      by_cases hc : c = j
      · subst hc; simp [List.mem_cons, hne, updE]
      · simp [List.mem_cons, hc, updE_ne _ _ _ _ hc]
    · have hne' : fneq (rowf j) mv = false := by simpa using hne
      rw [if_neg (by simp [hne']), ih _ hjs]
      refine congrArg Except.ok (funext fun c => ?_)
      by_cases hc : c = j
      · subst hc; simp [hne']
      · simp [List.mem_cons, hc]

/-- With a non-NaN sentinel, a NaN among the listed columns makes the loop
fail with the input-format error. -/
theorem materializeDenseCols_nanErr (mv : FVal) (rowf : Nat → FVal) (l : List Nat)
    (s : Nat → Entry) (hnan : ∃ j ∈ l, CheckNAN (rowf j) = true) :
    materializeDenseCols false mv rowf l s = .error () := by
  induction l generalizing s with
  | nil => rcases hnan with ⟨j, hj, _⟩; cases hj
  | cons a as ih =>
    simp only [materializeDenseCols]
    by_cases ha : CheckNAN (rowf a) = true
    · rw [if_pos ha]; rfl
    · rcases hnan with ⟨j, hj, hjn⟩
      rcases List.mem_cons.mp hj with rfl | hjs
      · exact absurd hjn ha
      · rw [if_neg ha]
        by_cases hne : (false || fneq (rowf a) mv) = true
        · rw [if_pos hne]; exact ih _ ⟨j, hjs, hjn⟩
        · rw [if_neg hne]; exact ih _ ⟨j, hjs, hjn⟩

/-- The canonical entries of a dense row under the missing-value policy:
present exactly for the in-range, non-NaN values that are not excluded by a
non-NaN sentinel. -/
def denseRowEntries (b : DenseBatch) (rid : Nat) : Nat → Entry := fun c =>
  if c < b.num_col ∧ CheckNAN (b.data (rid * b.num_col + c)) = false ∧
      (CheckNAN b.missing_value || fneq (b.data (rid * b.num_col + c)) b.missing_value) = true
  then Entry.fvalue (b.data (rid * b.num_col + c))
  else Entry.missing

/-- On a clean slice, a dense row that does not trip the NaN check
materializes to its canonical entries. -/
theorem materializeDenseRow_clean (b : DenseBatch) (rid : Nat)
    (h : badRow b rid = false) :
    materializeDenseRow b rid cleanSlice = .ok (denseRowEntries b rid) := by
  unfold materializeDenseRow
  by_cases hs : CheckNAN b.missing_value = true
  · rw [hs, materializeDenseCols_nanMissing]
    refine congrArg Except.ok (funext fun c => ?_)
    unfold denseRowEntries
    simp [List.mem_range, hs, cleanSlice, and_assoc]
  · have hs' : CheckNAN b.missing_value = false := by simpa using hs
    unfold badRow at h
    rw [hs'] at h
    simp only [Bool.not_false, Bool.true_and, List.any_eq_false] at h
    have hnn : ∀ j ∈ List.range b.num_col,
        CheckNAN (b.data (rid * b.num_col + j)) = false := by
      intro j hj
      simpa using h j hj
    rw [hs', materializeDenseCols_finite _ _ _ _ hnn]
    refine congrArg Except.ok (funext fun c => ?_)
    unfold denseRowEntries
    by_cases hc : c < b.num_col
    · have := hnn c (List.mem_range.mpr hc)
      simp [List.mem_range, hs', hc, this, cleanSlice, and_assoc]
    · simp [List.mem_range, hc, cleanSlice]

/-- On any slice, a dense row that trips the NaN check fails with the
input-format error. -/
theorem materializeDenseRow_err (b : DenseBatch) (rid : Nat) (s : Nat → Entry)
    (h : badRow b rid = true) :
    materializeDenseRow b rid s = .error () := by
  unfold materializeDenseRow badRow at *
  simp only [Bool.and_eq_true, Bool.not_eq_true', List.any_eq_true] at h
  rw [h.1]
  exact materializeDenseCols_nanErr _ _ _ _ h.2

/-- Full characterization of dense cleanup: every listed slot becomes
missing, the rest are untouched. -/
theorem cleanupDenseCols_eq (l : List Nat) (s : Nat → Entry) (c : Nat) :
    cleanupDenseCols l s c = if c ∈ l then Entry.missing else s c := by
  induction l generalizing s with
  | nil => simp [cleanupDenseCols]
  | cons a as ih =>
    simp only [cleanupDenseCols]
    rw [ih]
    by_cases has : c ∈ as
    · rw [if_pos has, if_pos (List.mem_cons_of_mem a has)]
    · rw [if_neg has]
      by_cases hac : c = a
      · subst hac
        rw [if_pos (List.mem_cons_self c as), updE_self]
      · rw [if_neg (by simp [hac, has]), updE_ne _ _ _ _ hac]

/-- Dense cleanup after a successful materialization restores the clean
slice: the reset loop covers every in-range slot and the canonical entries
are missing out of range. -/
theorem cleanupDenseRow_entries (b : DenseBatch) (rid : Nat) :
    cleanupDenseRow b.num_col (denseRowEntries b rid) = cleanSlice := by
  funext c
  unfold cleanupDenseRow
  rw [cleanupDenseCols_eq]
  by_cases hc : c ∈ List.range b.num_col
  · rw [if_pos hc]; rfl
  · rw [if_neg hc]
    unfold denseRowEntries
    rw [if_neg (fun hh => hc (List.mem_range.mpr hh.1))]
    rfl

/-- The dense loop body on a clean slice: it fails exactly on a bad row, and
otherwise calls back on the canonical entries and restores the clean slice. -/
theorem denseStep_clean (b : DenseBatch) (f : PredFunc) (rid : Nat) :
    denseStep b f rid cleanSlice =
      if badRow b rid = true then none
      else some (f rid (denseRowEntries b rid), cleanSlice) := by
  unfold denseStep
  by_cases h : badRow b rid = true
  · rw [materializeDenseRow_err b rid _ h, if_pos h]
  · rw [materializeDenseRow_clean b rid (by simpa using h), if_neg h]
    show some (f rid (denseRowEntries b rid),
      cleanupDenseRow b.num_col (denseRowEntries b rid)) = _
    rw [cleanupDenseRow_entries]

/-! ### The parallel loop -/

/-- A worker whose every row succeeds from (and back to) a clean slice
produces exactly the per-row writes in row order and the sum of the counts. -/
theorem runThread_clean (step : StepFun) (res : Nat → List (Nat × FVal) × Nat)
    (rows : List Nat) (h : ∀ rid ∈ rows, step rid cleanSlice = some (res rid, cleanSlice)) :
    runThread step rows cleanSlice =
      ⟨(rows.map fun r => (res r).1).flatten, (rows.map fun r => (res r).2).sum,
        false, cleanSlice⟩ := by
  induction rows with
  | nil => rfl
  | cons rid rest ih =>
    simp only [runThread, h rid (List.mem_cons_self rid rest),
      ih fun r hr => h r (List.mem_cons_of_mem rid hr)]
    simp [List.sum_cons]

/-- A worker's traversal decomposes across list append as long as the first
part does not fail. -/
theorem runThread_append (step : StepFun) (l1 l2 : List Nat) (s : Nat → Entry)
    (h : (runThread step l1 s).err = false) :
    runThread step (l1 ++ l2) s =
      ⟨(runThread step l1 s).writes ++ (runThread step l2 (runThread step l1 s).slice).writes,
        (runThread step l1 s).total + (runThread step l2 (runThread step l1 s).slice).total,
        (runThread step l2 (runThread step l1 s).slice).err,
        (runThread step l2 (runThread step l1 s).slice).slice⟩ := by
  induction l1 generalizing s with
  | nil => simp [runThread]
  | cons rid rest ih =>
    cases hstep : step rid s with
    | none => simp [runThread, hstep] at h
    | some rs =>
      obtain ⟨r, s1⟩ := rs
      have h' : (runThread step rest s1).err = false := by
        simp only [runThread, hstep] at h
        exact h
      simp only [List.cons_append, runThread, hstep]
      simp [ih s1 h', List.append_assoc, Nat.add_assoc]

/-- The chunk boundaries are monotone in the thread index. -/
theorem chunkStart_mono (num_row nthread t : Nat) :
    chunkStart num_row nthread t ≤ chunkStart num_row nthread (t + 1) := by
  unfold chunkStart
  exact min_le_min (Nat.mul_le_mul_right _ (Nat.le_succ t)) le_rfl

/-- With at least one thread, the last chunk boundary reaches `num_row`:
`nthread * ceil(num_row / nthread) ≥ num_row`. -/
theorem chunkStart_last (num_row nthread : Nat) (h : 1 ≤ nthread) :
    chunkStart num_row nthread nthread = num_row := by
  unfold chunkStart chunkSize
  refine Nat.min_eq_right ?_
  have hmod : (num_row + nthread - 1) % nthread < nthread := Nat.mod_lt _ h
  have hdm := Nat.div_add_mod (num_row + nthread - 1) nthread
  generalize hP : nthread * ((num_row + nthread - 1) / nthread) = P at hdm ⊢
  omega

/-- Along monotone boundaries, the first boundary is below the last. -/
theorem boundaries_le (f : Nat → Nat) :
    ∀ n, (∀ t, t < n → f t ≤ f (t + 1)) → f 0 ≤ f n := by
  intro n
  induction n with
  | zero => intro _; exact le_rfl
  | succ m ihm =>
    intro hm
    exact le_trans (ihm fun t ht => hm t (Nat.lt_succ_of_lt ht))
      (hm m (Nat.lt_succ_self m))

/-- Concatenating contiguous ranges along monotone boundaries yields the
full range. -/
theorem range'_flatten_boundaries (f : Nat → Nat) (n : Nat)
    (hmono : ∀ t, t < n → f t ≤ f (t + 1)) :
    ((List.range n).map fun t => List.range' (f t) (f (t + 1) - f t)).flatten =
      List.range' (f 0) (f n - f 0) := by
  induction n with
  | zero => simp
  | succ n ih =>
    have hmono' : ∀ t, t < n → f t ≤ f (t + 1) := fun t ht => hmono t (Nat.lt_succ_of_lt ht)
    have h0n : f 0 ≤ f n := boundaries_le f n hmono'
    have hnn : f n ≤ f (n + 1) := hmono n (Nat.lt_succ_self n)
    rw [List.range_succ, List.map_append, List.flatten_append, ih hmono']
    simp only [List.map_cons, List.map_nil, List.flatten_cons, List.flatten_nil,
      List.append_nil]
    have := List.range'_append (f 0) (f n - f 0) (f (n + 1) - f n) 1
    simp only [one_mul, Nat.mul_one] at this
    rw [show f 0 + (f n - f 0) = f n by omega] at this
    rw [this]
    congr 1
    omega

/-- The static chunks, concatenated in thread order, are exactly the row
range `[0, num_row)` — for any team size of at least one thread. -/
theorem staticChunk_flatten (num_row nthread : Nat) (h : 1 ≤ nthread) :
    ((List.range nthread).map fun t => staticChunk num_row nthread t).flatten =
      List.range num_row := by
  unfold staticChunk
  rw [range'_flatten_boundaries (fun t => chunkStart num_row nthread t) nthread
    (fun t _ => chunkStart_mono num_row nthread t)]
  rw [chunkStart_last num_row nthread h]
  have h0 : chunkStart num_row nthread 0 = 0 := by
    unfold chunkStart
    simp
  rw [h0, List.range_eq_range' num_row, Nat.sub_zero]

/-- Every row in a static chunk is a genuine row index (`< num_row`). -/
theorem staticChunk_lt (num_row nthread t rid : Nat)
    (h : rid ∈ staticChunk num_row nthread t) : rid < num_row := by
  unfold staticChunk at h
  have := List.mem_range'_1.mp h
  have hup : chunkStart num_row nthread (t + 1) ≤ num_row := min_le_right _ _
  omega

/-- Flattening per-chunk flattened maps equals flattening the map over the
concatenated chunks. -/
theorem flatten_map_flatten {α : Type} (l : List (List Nat)) (g : Nat → List α) :
    (l.map fun ch => (ch.map g).flatten).flatten = ((l.flatten).map g).flatten := by
  induction l with
  | nil => rfl
  | cons ch chs ih =>
    simp [List.map_append, List.flatten_append, ih]

/-- Summing per-chunk sums equals summing over the concatenated chunks. -/
theorem sum_map_sum (l : List (List Nat)) (g : Nat → Nat) :
    (l.map fun ch => (ch.map g).sum).sum = ((l.flatten).map g).sum := by
  induction l with
  | nil => rfl
  | cons ch chs ih =>
    simp [List.map_append, List.sum_append, ih]

/-- `PredLoop` under a clean-per-row body: the loop succeeds, the writes are
the per-row writes joined in increasing row order, and the total is the sum
of the per-row counts — independently of the (positive) team size. -/
theorem predLoop_clean (num_row : Nat) (step : StepFun)
    (res : Nat → List (Nat × FVal) × Nat) (nthread : Nat) (out : Nat → FVal)
    (hn : 1 ≤ nthread)
    (h : ∀ rid, rid < num_row → step rid cleanSlice = some (res rid, cleanSlice)) :
    predLoop num_row step nthread out =
      if rowBoundCheck num_row then
        { out := applyWrites (((List.range num_row).map fun r => (res r).1).flatten) out
          total := ((List.range num_row).map fun r => (res r).2).sum
          err := false }
      else { out := out, total := 0, err := true } := by
  unfold predLoop
  by_cases hb : rowBoundCheck num_row = true
  · rw [if_pos hb, if_pos hb]
    have hrun : ∀ t, runThread step (staticChunk num_row nthread t) cleanSlice =
        ⟨((staticChunk num_row nthread t).map fun r => (res r).1).flatten,
          ((staticChunk num_row nthread t).map fun r => (res r).2).sum,
          false, cleanSlice⟩ := by
      intro t
      exact runThread_clean step res _ fun rid hrid =>
        h rid (staticChunk_lt num_row nthread t rid hrid)
    have hflat := staticChunk_flatten num_row nthread hn
    simp only [hrun, List.map_map]
    have hW := flatten_map_flatten
      ((List.range nthread).map fun t => staticChunk num_row nthread t)
      (fun r => (res r).1)
    have hS := sum_map_sum
      ((List.range nthread).map fun t => staticChunk num_row nthread t)
      (fun r => (res r).2)
    rw [hflat] at hW hS
    rw [List.map_map] at hW hS
    congr 1
    all_goals first
      | (rw [← hW]; rfl)
      | (rw [← hS]; rfl)
      | simp
  · rw [if_neg hb, if_neg hb]

/-! ### Output-buffer writes -/

/-- Applying writes distributes over list append. -/
theorem applyWrites_append (ws1 ws2 : List (Nat × FVal)) (o : Nat → FVal) :
    applyWrites (ws1 ++ ws2) o = applyWrites ws2 (applyWrites ws1 o) := by
  induction ws1 generalizing o with
  | nil => rfl
  | cons w ws ih => simp only [List.cons_append, applyWrites, List.append_eq, ih]

/-- A slot no write targets is untouched. -/
theorem applyWrites_not_mem (ws : List (Nat × FVal)) (o : Nat → FVal) (p : Nat)
    (h : ∀ w ∈ ws, w.1 ≠ p) :
    applyWrites ws o p = o p := by
  induction ws generalizing o with
  | nil => rfl
  | cons w ws ih =>
    simp only [applyWrites]
    rw [ih _ fun w' hw' => h w' (List.mem_cons_of_mem w hw'),
      updF_ne _ _ _ _ fun he => h w (List.mem_cons_self w ws) he.symm]

/-- The indices of a stride-write block are exactly `[base, base + |vs|)`. -/
theorem strideWrites_idx (vs : List FVal) (base : Nat) (w : Nat × FVal)
    (h : w ∈ strideWrites base vs) : base ≤ w.1 ∧ w.1 < base + vs.length := by
  induction vs generalizing base with
  | nil => cases h
  | cons v vs ih =>
    simp only [strideWrites, List.mem_cons] at h
    rcases h with rfl | h
    · simp
    · have := ih (base + 1) h
      constructor <;> [omega; (simp only [List.length_cons]; omega)]

/-- Applying a stride-write block assigns the `j`-th produced value to slot
`base + j`. -/
theorem applyWrites_strideWrites (vs : List FVal) (base j : Nat) (o : Nat → FVal)
    (hj : j < vs.length) :
    applyWrites (strideWrites base vs) o (base + j) = vs.getD j (FVal.val 0) := by
  induction vs generalizing base j o with
  | nil => cases hj
  | cons v vs ih =>
    simp only [strideWrites, applyWrites]
    cases j with
    | zero =>
      rw [applyWrites_not_mem _ _ _ fun w hw => by
        have := strideWrites_idx vs (base + 1) w hw
        omega]
      simp
    | succ j =>
      have hj' : j < vs.length := by simpa using hj
      rw [show base + (j + 1) = (base + 1) + j by omega, ih _ _ _ hj']
      rfl

/-! ### The in-place output reshaper -/

/-- The inner reshape loop only writes at the slots `r*k + a` for listed `a`. -/
theorem compactRowCols_not_mem (g k r : Nat) (l : List Nat) (o : Nat → FVal) (i : Nat)
    (h : ∀ a ∈ l, r * k + a ≠ i) :
    compactRowCols g k r l o i = o i := by
  induction l generalizing o with
  | nil => rfl
  | cons a as ih =>
    simp only [compactRowCols]
    rw [ih _ fun a' ha' => h a' (List.mem_cons_of_mem a ha'),
      updF_ne _ _ _ _ fun he => h a (List.mem_cons_self a as) he.symm]

/-- Invariant of the inner reshape loop over `a ∈ [a0, a0+m)`: the write
cursor `r*k + a` only moves right, every slot at or beyond it still holds
the original buffer value, and each visited slot receives the original
value from its strided source `r*g + a` (which lies at or beyond the
cursor since `k ≤ g`). -/
theorem compactRowCols_spec (g k r : Nat) (hkg : k ≤ g) (o0 : Nat → FVal) :
    ∀ (m a0 : Nat) (o : Nat → FVal), a0 + m ≤ k →
      (∀ i, r * k + a0 ≤ i → o i = o0 i) →
      (∀ i, r * k + (a0 + m) ≤ i →
          compactRowCols g k r (List.range' a0 m) o i = o0 i) ∧
      (∀ a, a0 ≤ a → a < a0 + m →
          compactRowCols g k r (List.range' a0 m) o (r * k + a) = o0 (r * g + a)) := by
  intro m
  induction m with
  | zero =>
    intro a0 o _ hpre
    refine ⟨fun i hi => hpre i (by omega), fun a ha1 ha2 => by omega⟩
  | succ m ih =>
    intro a0 o hm hpre
    rw [List.range'_succ a0 m 1]
    simp only [compactRowCols]
    have hsrc : o (r * g + a0) = o0 (r * g + a0) := by
      refine hpre _ ?_
      have : r * k ≤ r * g := Nat.mul_le_mul_left r hkg
      omega
    have hpre' : ∀ i, r * k + (a0 + 1) ≤ i →
        updF o (r * k + a0) (o (r * g + a0)) i = o0 i := by
      intro i hi
      rw [updF_ne _ _ _ _ (by omega)]
      exact hpre i (by omega)
    have hmain := ih (a0 + 1) (updF o (r * k + a0) (o (r * g + a0))) (by omega) hpre'
    refine ⟨fun i hi => hmain.1 i (by omega), fun a ha1 ha2 => ?_⟩
    by_cases ha : a = a0
    · subst ha
      rw [compactRowCols_not_mem _ _ _ _ _ _ fun a' ha' => by
        have := List.mem_range'_1.mp ha'
        omega]
      rw [updF_self, hsrc]
    · exact hmain.2 a (by omega) (by omega)

/-- The outer reshape loop, processed over rows `[0, n)` in increasing
order: rows at or beyond the cursor are untouched, and every compacted slot
of a processed row holds the original strided value. -/
theorem compactRows_spec (g k : Nat) (hkg : k ≤ g) (o0 : Nat → FVal) :
    ∀ n : Nat,
      (∀ i, n * k ≤ i → compactRows g k (List.range n) o0 i = o0 i) ∧
      (∀ r, r < n → ∀ a, a < k →
          compactRows g k (List.range n) o0 (r * k + a) = o0 (r * g + a)) := by
  intro n
  induction n with
  | zero => exact ⟨fun i _ => rfl, fun r hr => by omega⟩
  | succ n ih =>
    have happ : ∀ o, compactRows g k (List.range (n + 1)) o =
        compactRowCols g k n (List.range k) (compactRows g k (List.range n) o) := by
      intro o
      rw [List.range_succ]
      have : ∀ (l1 l2 : List Nat) (oo : Nat → FVal),
          compactRows g k (l1 ++ l2) oo = compactRows g k l2 (compactRows g k l1 oo) := by
        intro l1
        induction l1 with
        | nil => intro l2 oo; rfl
        | cons x xs ihx =>
          intro l2 oo
          simp only [List.cons_append, compactRows, List.append_eq, ihx]
      rw [this]
      rfl
    have hinner := compactRowCols_spec g k n hkg o0 k 0
      (compactRows g k (List.range n) o0) (by omega)
      (fun i hi => ih.1 i (by omega))
    have hd : (n + 1) * k = n * k + k := Nat.succ_mul n k
    constructor
    · intro i hi
      rw [happ, List.range_eq_range' k]
      exact hinner.1 i (by omega)
    · intro r hr a ha
      rw [happ, List.range_eq_range' k]
      by_cases hrn : r = n
      · subst hrn
        exact hinner.2 a (by omega) (by omega)
      · have hlt : r * k + a < n * k := by
          have h1 : r + 1 ≤ n := by omega
          have h2 : (r + 1) * k ≤ n * k := Nat.mul_le_mul_right k h1
          have h3 : r * k + a < (r + 1) * k := by
            rw [Nat.succ_mul]
            omega
          omega
        rw [compactRowCols_not_mem _ _ _ _ _ _ fun a' ha' => by
          have := List.mem_range'_1.mp ha'
          omega]
        exact ih.2 r (by omega) a ha

/-- Reshape correctness: for `k ≤ g`, the compacted slot `r*k + a` of every
row `r < n` holds the value originally at the strided slot `r*g + a`. -/
theorem compact_spec (n g k : Nat) (hkg : k ≤ g) (o : Nat → FVal) (r a : Nat)
    (hr : r < n) (ha : a < k) :
    compact n g k o (r * k + a) = o (r * g + a) :=
  (compactRows_spec g k hkg o n).2 r hr a ha

/-- Splitting the row range at one row. -/
theorem range_split (n r : Nat) (hr : r < n) :
    List.range n = List.range r ++ r :: List.range' (r + 1) (n - r - 1) := by
  rw [List.range_eq_range' n, List.range_eq_range' r]
  have happ := List.range'_append 0 r (n - r) 1
  simp only [one_mul, Nat.mul_one, Nat.zero_add] at happ
  rw [show n - r + r = n by omega] at happ
  rw [← happ]
  congr 1
  conv_lhs => rw [show n - r = (n - r - 1) + 1 by omega]
  rw [List.range'_succ r (n - r - 1) 1]

/-- The post-loop output buffer of a run whose row `r` wrote the block
`vals r` at stride `g`: slot `r*g + j` holds the `j`-th value row `r`
produced, provided no row writes more than `g` values. -/
theorem applyWrites_strideRows (vals : Nat → List FVal) (g nrow : Nat) (out : Nat → FVal)
    (hlen : ∀ rr, rr < nrow → (vals rr).length ≤ g) (r j : Nat) (hr : r < nrow)
    (hj : j < (vals r).length) :
    applyWrites (((List.range nrow).map fun rr => strideWrites (rr * g) (vals rr)).flatten)
        out (r * g + j) = (vals r).getD j (FVal.val 0) := by
  rw [range_split nrow r hr, List.map_append, List.flatten_append, List.map_cons,
    List.flatten_cons, applyWrites_append, applyWrites_append]
  have hjg : j < g := lt_of_lt_of_le hj (hlen r hr)
  rw [applyWrites_not_mem _ _ _ ?later, applyWrites_strideWrites _ _ _ _ hj]
  case later =>
    intro w hw
    rcases List.mem_flatten.mp hw with ⟨blk, hblk, hwblk⟩
    rcases List.mem_map.mp hblk with ⟨rr, hrr, rfl⟩
    have hrr' := List.mem_range'_1.mp hrr
    have hwi := strideWrites_idx _ _ _ hwblk
    have h1 : (r + 1) * g ≤ rr * g := Nat.mul_le_mul_right g (by omega)
    have h2 : (r + 1) * g = r * g + g := Nat.succ_mul r g
    omega

/-- Summing a constant `k` over the row range gives `num_row * k`. -/
theorem sum_map_const (n k : Nat) : ((List.range n).map fun _ => k).sum = n * k := by
  induction n with
  | zero => simp
  | succ n ih =>
    rw [List.range_succ, List.map_append, List.sum_append, ih]
    simp [Nat.succ_mul]

/-! ### Claims -/

/-- C2: dense row materialization follows the missing-value policy.  With a
NaN sentinel, materialization succeeds, NaN elements stay missing and every
non-NaN element is present with its value.  With a non-NaN sentinel, a NaN
element fails the call with the input-format error; otherwise an element
equal to the sentinel stays missing and every other element is present. -/
theorem claim2_dense_missing_policy (b : DenseBatch) (rid : Nat) :
    (CheckNAN b.missing_value = true →
      ∃ E, materializeDenseRow b rid cleanSlice = .ok E ∧
        ∀ c, c < b.num_col →
          E c = if CheckNAN (b.data (rid * b.num_col + c)) = true then Entry.missing
                else Entry.fvalue (b.data (rid * b.num_col + c)))
    ∧ (∀ m : Int, b.missing_value = .val m →
        ((∃ j, j < b.num_col ∧ b.data (rid * b.num_col + j) = .nan) →
          materializeDenseRow b rid cleanSlice = .error ())
        ∧ ((∀ j, j < b.num_col → b.data (rid * b.num_col + j) ≠ .nan) →
          ∃ E, materializeDenseRow b rid cleanSlice = .ok E ∧
            ∀ c, c < b.num_col →
              E c = if b.data (rid * b.num_col + c) = .val m then Entry.missing
                    else Entry.fvalue (b.data (rid * b.num_col + c)))) := by
  constructor
  · intro hs
    have hbad : badRow b rid = false := by
      unfold badRow
      rw [hs]
      rfl
    refine ⟨denseRowEntries b rid, materializeDenseRow_clean b rid hbad, fun c hc => ?_⟩
    unfold denseRowEntries
    cases hx : b.data (rid * b.num_col + c) with
    | nan =>
      have hnx : CheckNAN FVal.nan = true := rfl
      simp [hc, hx, hnx]
    | val a =>
      have hnx : CheckNAN (FVal.val a) = false := rfl
      simp [hc, hx, hnx, hs]
  · intro m hm
    have hcn : CheckNAN b.missing_value = false := by rw [hm]; rfl
    constructor
    · intro ⟨j, hj, hnan⟩
      refine materializeDenseRow_err b rid _ ?_
      unfold badRow
      rw [hcn]
      simp only [Bool.not_false, Bool.true_and, List.any_eq_true]
      exact ⟨j, List.mem_range.mpr hj, by rw [hnan]; rfl⟩
    · intro hnn
      have hbad : badRow b rid = false := by
        unfold badRow
        rw [hcn]
        simp only [Bool.not_false, Bool.true_and, List.any_eq_false]
        intro j hj
        cases hx : b.data (rid * b.num_col + j) with
        | nan => exact absurd hx (hnn j (List.mem_range.mp hj))
        | val a => simp [CheckNAN]
      refine ⟨denseRowEntries b rid, materializeDenseRow_clean b rid hbad, fun c hc => ?_⟩
      unfold denseRowEntries
      cases hx : b.data (rid * b.num_col + c) with
      | nan => exact absurd hx (hnn c hc)
      | val a =>
        by_cases ham : a = m
        · subst ham
          simp [hc, CheckNAN, hx, hm, fneq]
        · simp [hc, CheckNAN, hx, hm, fneq, ham]

/-- C2 witness: a 1×2 dense batch with NaN sentinel materializes its NaN
element as missing and its other element as present, and a finite-sentinel
batch with a NaN element is rejected. -/
theorem claim2_witness :
    (∃ E, materializeDenseRow ⟨fun i => if i = 0 then .nan else .val 5, .nan, 1, 2⟩ 0
        cleanSlice = .ok E ∧ E 0 = Entry.missing ∧ E 1 = Entry.fvalue (.val 5))
    ∧ materializeDenseRow ⟨fun i => if i = 0 then .nan else .val 5, .val 0, 1, 2⟩ 0
        cleanSlice = .error () := by
  constructor
  · obtain ⟨E, hok, hE⟩ :=
      (claim2_dense_missing_policy ⟨fun i => if i = 0 then .nan else .val 5, .nan, 1, 2⟩ 0).1
        rfl
    exact ⟨E, hok, by simpa using hE 0 (by decide), by simpa using hE 1 (by decide)⟩
  · exact ((claim2_dense_missing_policy
      ⟨fun i => if i = 0 then .nan else .val 5, .val 0, 1, 2⟩ 0).2 0 rfl).1
      ⟨0, by decide, rfl⟩

/-- C3: after materializing a CSR row on a clean slice, exactly the listed
columns are present — each carrying its corresponding data value — and every
unlisted column is missing.  (Column indices are assumed not to repeat
within the row, as the value claim presupposes.) -/
theorem claim3_csr_materialization (b : CSRBatch) (rid : Nat)
    (huniq : ∀ i ∈ csrRowIdx b rid, ∀ i' ∈ csrRowIdx b rid,
      b.col_ind i' = b.col_ind i → i' = i) :
    (∀ i ∈ csrRowIdx b rid,
      materializeCSRRow b rid cleanSlice (b.col_ind i) = Entry.fvalue (b.data i))
    ∧ (∀ c, (∀ i ∈ csrRowIdx b rid, b.col_ind i ≠ c) →
      materializeCSRRow b rid cleanSlice c = Entry.missing) := by
  constructor
  · intro i hi
    exact materializeCSRCols_mem _ _ _ _ i hi fun i' hi' he => huniq i hi i' hi' he
  · intro c hc
    unfold materializeCSRRow
    rw [materializeCSRCols_ne _ _ _ _ _ hc]
    rfl

/-- C3 witness: a concrete CSR row `{col 2 ↦ 10, col 0 ↦ 11}` materializes
those two columns as present and column 1 as missing. -/
theorem claim3_witness :
    materializeCSRRow ⟨fun i => .val (Int.ofNat i + 10), fun i => if i = 0 then 2 else 0,
        fun r => if r = 0 then 0 else 2, 1, 3⟩ 0 cleanSlice 2 = Entry.fvalue (.val 10)
    ∧ materializeCSRRow ⟨fun i => .val (Int.ofNat i + 10), fun i => if i = 0 then 2 else 0,
        fun r => if r = 0 then 0 else 2, 1, 3⟩ 0 cleanSlice 0 = Entry.fvalue (.val 11)
    ∧ materializeCSRRow ⟨fun i => .val (Int.ofNat i + 10), fun i => if i = 0 then 2 else 0,
        fun r => if r = 0 then 0 else 2, 1, 3⟩ 0 cleanSlice 1 = Entry.missing := by
  have h := claim3_csr_materialization
    ⟨fun i => .val (Int.ofNat i + 10), fun i => if i = 0 then 2 else 0,
      fun r => if r = 0 then 0 else 2, 1, 3⟩ 0 (by decide)
  exact ⟨by simpa using h.1 0 (by decide), by simpa using h.1 1 (by decide),
    h.2 1 (by decide)⟩

/-- C5: after a row's prediction call, every slot it touched is reset to
missing, so a clean slice stays clean across rows and row `i+1`
materializes exactly as on a fresh slice; a slot the row never touches
keeps its previous marker.  The dense cleanup resets every in-range slot,
so a successfully materialized dense row also restores the clean slice. -/
theorem claim5_scratch_reset (b : CSRBatch) (d : DenseBatch) (i : Nat) (s : Nat → Entry)
    (hs : ∀ c, s c = Entry.missing) :
    (∀ c, cleanupCSRRow b i (materializeCSRRow b i s) c = Entry.missing)
    ∧ (materializeCSRRow b (i + 1) (cleanupCSRRow b i (materializeCSRRow b i s)) =
        materializeCSRRow b (i + 1) cleanSlice)
    ∧ (∀ (s2 : Nat → Entry) (c : Nat), (∀ i' ∈ csrRowIdx b i, b.col_ind i' ≠ c) →
        cleanupCSRRow b i (materializeCSRRow b i s2) c = s2 c)
    ∧ (∀ E, materializeDenseRow d i cleanSlice = .ok E →
        ∀ c, cleanupDenseRow d.num_col E c = Entry.missing) := by
  have hseq : s = cleanSlice := funext fun c => hs c
  subst hseq
  refine ⟨?_, ?_, ?_, ?_⟩
  · intro c
    rw [cleanupCSRRow_materialize_clean]
    rfl
  · rw [cleanupCSRRow_materialize_clean]
  · intro s2 c hc
    exact csr_untouched_persist b i s2 c hc
  · intro E hE c
    by_cases hbad : badRow d i = true
    · rw [materializeDenseRow_err d i _ hbad] at hE
      cases hE
    · rw [materializeDenseRow_clean d i (by simpa using hbad)] at hE
      have hEe : E = denseRowEntries d i := by
        cases hE
        rfl
      rw [hEe, cleanupDenseRow_entries]
      rfl

/-- C5 witness: on a concrete CSR row and dense row the reset invariants
hold at specific slots. -/
theorem claim5_witness :
    cleanupCSRRow ⟨fun _ => .val 7, fun _ => 0, fun r => if r = 0 then 0 else 1, 2, 1⟩ 0
      (materializeCSRRow ⟨fun _ => .val 7, fun _ => 0, fun r => if r = 0 then 0 else 1, 2, 1⟩
        0 cleanSlice) 0 = Entry.missing
    ∧ (∀ E, materializeDenseRow ⟨fun _ => .val 3, .val 0, 1, 1⟩ 0 cleanSlice = .ok E →
        ∀ c, cleanupDenseRow 1 E c = Entry.missing) := by
  have h := claim5_scratch_reset
    ⟨fun _ => .val 7, fun _ => 0, fun r => if r = 0 then 0 else 1, 2, 1⟩
    ⟨fun _ => .val 3, .val 0, 1, 1⟩ 0 cleanSlice (fun _ => rfl)
  exact ⟨h.1 0, h.2.2.2⟩

/-- C7 (amended): on an LP64 platform the row-count guard accepts every
`num_row` up to the full signed 64-bit maximum `2^63 - 1` inclusive — in
particular `2^63 - 2` — and only a count exceeding `2^63 - 1` is a fatal
precondition violation, raised before the parallel loop runs, with no
writes and no wraparound. -/
theorem claim7_row_bound (num_row : Nat) (step : StepFun) (nthread : Nat)
    (out : Nat → FVal) :
    (num_row ≤ 2 ^ 63 - 1 → rowBoundCheck num_row = true)
    ∧ (2 ^ 63 - 1 < num_row →
        rowBoundCheck num_row = false ∧
        predLoop num_row step nthread out = { out := out, total := 0, err := true }) := by
  constructor
  · intro h
    unfold rowBoundCheck
    simp only [Bool.or_eq_true, decide_eq_true_eq]
    omega
  · intro h
    have hb : rowBoundCheck num_row = false := by
      unfold rowBoundCheck
      simp only [Bool.or_eq_false_iff, decide_eq_false_iff_not]
      omega
    refine ⟨hb, ?_⟩
    unfold predLoop
    rw [if_neg (by simp [hb])]

/-- C7 counterexample: the claim says any `num_row` exceeding
`2^63 - 2` is rejected, but `num_row = 2^63 - 1` exceeds that bound and
passes the guard. -/
theorem claim7_counterexample :
    2 ^ 63 - 2 < 2 ^ 63 - 1 ∧ rowBoundCheck (2 ^ 63 - 1) = true := by
  constructor
  · decide
  · unfold rowBoundCheck
    simp

/-- C7 witness: `2^63 - 2` is accepted, and `2^63` is rejected before the
loop with the buffer untouched. -/
theorem claim7_witness :
    rowBoundCheck (2 ^ 63 - 2) = true ∧
    rowBoundCheck (2 ^ 63) = false ∧
    predLoop (2 ^ 63) (csrStep ⟨fun _ => .val 0, fun _ => 0, fun _ => 0, 2 ^ 63, 1⟩
        (singleFunc false fun _ _ => .val 1)) 1 (fun _ => .val 9) =
      { out := fun _ => .val 9, total := 0, err := true } := by
  have h := claim7_row_bound (2 ^ 63)
    (csrStep ⟨fun _ => .val 0, fun _ => 0, fun _ => 0, 2 ^ 63, 1⟩
      (singleFunc false fun _ _ => .val 1)) 1 (fun _ => .val 9)
  have h2 := h.2 (by norm_num)
  exact ⟨(claim7_row_bound (2 ^ 63 - 2)
    (csrStep ⟨fun _ => .val 0, fun _ => 0, fun _ => 0, 2 ^ 63, 1⟩
      (singleFunc false fun _ _ => .val 1)) 1 (fun _ => .val 9)).1 (by norm_num),
    h2.1, h2.2⟩

/-- C8: the requested thread count is rewritten before the team is formed
and the scratch is sized — a request of 0 becomes the platform ceiling, any
other request is clamped to `min(request, ceiling)` — and the rest of the
call receives only the rewritten count. -/
theorem claim8_thread_clamp (mkStep : PredFunc → StepFun) (num_row : Nat)
    (req maxT : Int) (margin : Bool) (g : Nat) (h : PredFuncHandle)
    (expected : Nat) (out : Nat → FVal) :
    (PredictBatch_ mkStep num_row req maxT margin g (some h) expected out =
      PredictBatchLoaded num_row (mkStep (mkPredFunc g margin h))
        (effectiveNthread req maxT).toNat g expected out)
    ∧ effectiveNthread 0 maxT = maxT
    ∧ (req ≠ 0 → effectiveNthread req maxT = min req maxT)
    ∧ (PredictBatch_ mkStep num_row 0 maxT margin g (some h) expected out =
        PredictBatch_ mkStep num_row maxT maxT margin g (some h) expected out) := by
  refine ⟨rfl, by simp [effectiveNthread], fun hreq => by simp [effectiveNthread, hreq], ?_⟩
  by_cases hmt : maxT = 0
  · rw [hmt]
  · simp [PredictBatch_, effectiveNthread, hmt]

/-- C8 witness: with a ceiling of 3, a request of 5 is clamped to 3 and a
request of 0 behaves like a request of the ceiling. -/
theorem claim8_witness :
    effectiveNthread 0 3 = 3 ∧ effectiveNthread 5 3 = min 5 3 ∧
    PredictBatch_ (fun f => csrStep ⟨fun _ => .val 0, fun _ => 0, fun _ => 0, 1, 1⟩ f) 1
        0 3 false 1 (some (.inr fun _ _ => .val 2)) 1 (fun _ => .val 0) =
      PredictBatch_ (fun f => csrStep ⟨fun _ => .val 0, fun _ => 0, fun _ => 0, 1, 1⟩ f) 1
        3 3 false 1 (some (.inr fun _ _ => .val 2)) 1 (fun _ => .val 0) := by
  have h := claim8_thread_clamp
    (fun f => csrStep ⟨fun _ => .val 0, fun _ => 0, fun _ => 0, 1, 1⟩ f) 1 5 3 false 1
    (.inr fun _ _ => .val 2) 1 (fun _ => .val 0)
  exact ⟨h.2.1, h.2.2.1 (by decide), (claim8_thread_clamp
    (fun f => csrStep ⟨fun _ => .val 0, fun _ => 0, fun _ => 0, 1, 1⟩ f) 1 5 3 false 1
    (.inr fun _ _ => .val 2) 1 (fun _ => .val 0)).2.2.2⟩

/-- C10: when the loop's produced total is at least the expected size, none
of the reshape preconditions is evaluated and the call returns the total —
even one strictly exceeding the expected capacity — with the output buffer
exactly as the per-row calls wrote it. -/
theorem claim10_oversize_unchecked (num_row : Nat) (step : StepFun) (nthread : Nat)
    (g expected : Nat) (out : Nat → FVal)
    (herr : (predLoop num_row step nthread out).err = false)
    (hge : expected ≤ (predLoop num_row step nthread out).total) :
    PredictBatchLoaded num_row step nthread g expected out =
      { out := (predLoop num_row step nthread out).out
        ret := (predLoop num_row step nthread out).total
        error := none } := by
  unfold PredictBatchLoaded
  rw [if_neg (by simp [herr]), if_neg (by omega)]

/-- C10 witness: a misbehaving unit that writes 3 values per row against an
expected capacity of 2 triggers no check; the call returns 3 and the buffer
is left as written. -/
theorem claim10_witness :
    (2 : Nat) < (predLoop 1 (csrStep ⟨fun _ => .val 0, fun _ => 0, fun _ => 0, 1, 1⟩
        (mcFunc 2 false fun _ _ => [.val 1, .val 2, .val 3])) 1 (fun _ => .val 0)).total
    ∧ PredictBatchLoaded 1 (csrStep ⟨fun _ => .val 0, fun _ => 0, fun _ => 0, 1, 1⟩
        (mcFunc 2 false fun _ _ => [.val 1, .val 2, .val 3])) 1 2 2 (fun _ => .val 0) =
      { out := (predLoop 1 (csrStep ⟨fun _ => .val 0, fun _ => 0, fun _ => 0, 1, 1⟩
          (mcFunc 2 false fun _ _ => [.val 1, .val 2, .val 3])) 1 (fun _ => .val 0)).out
        ret := (predLoop 1 (csrStep ⟨fun _ => .val 0, fun _ => 0, fun _ => 0, 1, 1⟩
          (mcFunc 2 false fun _ _ => [.val 1, .val 2, .val 3])) 1 (fun _ => .val 0)).total
        error := none } := by
  refine ⟨by decide, claim10_oversize_unchecked 1
    (csrStep ⟨fun _ => .val 0, fun _ => 0, fun _ => 0, 1, 1⟩
      (mcFunc 2 false fun _ _ => [.val 1, .val 2, .val 3])) 1 2 2 (fun _ => .val 0)
    (by decide) (by decide)⟩

/-- C4 (amended): a prediction call before any successful `Load` is rejected
with the not-loaded error and writes nothing; but `Free` only closes the
image — it does not clear the stored entry points — so a call made after
`Free` still passes the not-loaded check and is not rejected (it would
invoke a dangling pointer). -/
theorem claim4_not_loaded (b : CSRBatch) (nthread maxT : Int) (m : Bool)
    (out : Nat → FVal) (p : Predictor) :
    (p.pred_func_handle = none →
      p.predictBatchCSR b nthread maxT m out =
        { out := out, ret := 0, error := some .notLoaded })
    ∧ (Predictor.init.predictBatchCSR b nthread maxT m out =
        { out := out, ret := 0, error := some .notLoaded })
    ∧ (p.free.pred_func_handle = p.pred_func_handle ∧ p.free.lib_open = false)
    ∧ (∀ h, p.pred_func_handle = some h →
        (p.free.predictBatchCSR b nthread maxT m out).error ≠ some .notLoaded) := by
  refine ⟨?_, rfl, ⟨rfl, rfl⟩, ?_⟩
  · intro hnone
    simp [Predictor.predictBatchCSR, PredictBatch_, hnone]
  · intro h hh
    have hfree : p.free.pred_func_handle = some h := hh
    simp only [Predictor.predictBatchCSR, Predictor.free] at hfree ⊢
    rw [hfree]
    simp only [PredictBatch_, PredictBatchLoaded]
    split
    · simp
    · split
      · split
        · simp
        · simp
      · simp

/-- C4 counterexample: after a successful `Load` followed by `Free`, the
entry-point member is still set, so the next `PredictBatch` call is not
rejected with the not-loaded error — it runs and returns normally. -/
theorem claim4_counterexample :
    Predictor.init.load (some ⟨some 1, none, some fun _ _ => .val 5⟩) =
      .ok ⟨some ⟨some 1, none, some fun _ _ => .val 5⟩, true, some 1,
        some (.inr fun _ _ => .val 5), 1⟩
    ∧ (Predictor.free ⟨some ⟨some 1, none, some fun _ _ => .val 5⟩, true, some 1,
        some (.inr fun _ _ => .val 5), 1⟩).pred_func_handle.isSome = true
    ∧ (Predictor.free ⟨some ⟨some 1, none, some fun _ _ => .val 5⟩, true, some 1,
        some (.inr fun _ _ => .val 5), 1⟩).lib_open = false
    ∧ ((Predictor.free ⟨some ⟨some 1, none, some fun _ _ => .val 5⟩, true, some 1,
        some (.inr fun _ _ => .val 5), 1⟩).predictBatchCSR
        ⟨fun _ => .val 0, fun _ => 0, fun _ => 0, 1, 1⟩ 1 1 false
        (fun _ => .val 0)).error = none
    ∧ ((Predictor.free ⟨some ⟨some 1, none, some fun _ _ => .val 5⟩, true, some 1,
        some (.inr fun _ _ => .val 5), 1⟩).predictBatchCSR
        ⟨fun _ => .val 0, fun _ => 0, fun _ => 0, 1, 1⟩ 1 1 false
        (fun _ => .val 0)).out 0 = .val 5 :=
  ⟨rfl, rfl, rfl, by decide, by decide⟩

/-- C9: the loop result — output buffer, reduced total and error flag — is
the same for any two positive team sizes: each row's callback sees the same
clean-slice entries whatever thread runs it, the output writes are
row-disjoint, and the reduction is order-independent.  For a dense batch
this holds whenever no row trips the in-loop NaN check (on a failing batch
the partial writes are unspecified). -/
theorem claim9_thread_determinism (b : CSRBatch) (d : DenseBatch) (f fd : PredFunc)
    (out outd : Nat → FVal) (n1 n2 : Nat) (h1 : 1 ≤ n1) (h2 : 1 ≤ n2)
    (hd : ∀ rid, rid < d.num_row → badRow d rid = false) :
    predLoop b.num_row (csrStep b f) n1 out = predLoop b.num_row (csrStep b f) n2 out
    ∧ predLoop d.num_row (denseStep d fd) n1 outd =
        predLoop d.num_row (denseStep d fd) n2 outd := by
  constructor
  · rw [predLoop_clean b.num_row (csrStep b f)
        (fun rid => f rid (materializeCSRRow b rid cleanSlice)) n1 out h1
        (fun rid _ => csrStep_clean b f rid),
      predLoop_clean b.num_row (csrStep b f)
        (fun rid => f rid (materializeCSRRow b rid cleanSlice)) n2 out h2
        (fun rid _ => csrStep_clean b f rid)]
  · have hstep : ∀ rid, rid < d.num_row →
        denseStep d fd rid cleanSlice = some (fd rid (denseRowEntries d rid), cleanSlice) := by
      intro rid hr
      rw [denseStep_clean, if_neg (by simp [hd rid hr])]
    rw [predLoop_clean d.num_row (denseStep d fd)
        (fun rid => fd rid (denseRowEntries d rid)) n1 outd h1 hstep,
      predLoop_clean d.num_row (denseStep d fd)
        (fun rid => fd rid (denseRowEntries d rid)) n2 outd h2 hstep]

/-- C9 witness: on a concrete 2-row CSR batch and a concrete 2-row dense
batch, team sizes 1 and 8 give identical loop results. -/
theorem claim9_witness :
    predLoop 2 (csrStep ⟨fun _ => .val 1, fun _ => 0, fun r => r, 2, 1⟩
        (singleFunc false fun e _ => match e 0 with | .fvalue v => v | .missing => .val 0))
        1 (fun _ => .val 0) =
      predLoop 2 (csrStep ⟨fun _ => .val 1, fun _ => 0, fun r => r, 2, 1⟩
        (singleFunc false fun e _ => match e 0 with | .fvalue v => v | .missing => .val 0))
        8 (fun _ => .val 0)
    ∧ predLoop 2 (denseStep ⟨fun _ => .val 4, .nan, 2, 1⟩
        (singleFunc false fun _ _ => .val 7)) 1 (fun _ => .val 0) =
      predLoop 2 (denseStep ⟨fun _ => .val 4, .nan, 2, 1⟩
        (singleFunc false fun _ _ => .val 7)) 8 (fun _ => .val 0) :=
  claim9_thread_determinism ⟨fun _ => .val 1, fun _ => 0, fun r => r, 2, 1⟩
    ⟨fun _ => .val 4, .nan, 2, 1⟩
    (singleFunc false fun e _ => match e 0 with | .fvalue v => v | .missing => .val 0)
    (singleFunc false fun _ _ => .val 7)
    (fun _ => .val 0) (fun _ => .val 0) 1 8 (by decide) (by decide)
    (fun _ _ => rfl)

/-- A single-thread team owns the whole row range as one chunk. -/
theorem staticChunk_one (n : Nat) : staticChunk n 1 0 = List.range n := by
  unfold staticChunk chunkStart chunkSize
  simp only [Nat.add_sub_cancel, Nat.div_one, Nat.zero_mul, Nat.one_mul, Nat.zero_le,
    Nat.min_eq_left, min_self]
  rw [List.range_eq_range' n]
  congr 1
  omega

/-- C6 (amended): the not-loaded and row-count checks precede the loop, but
the dense NaN input-format check fires from inside the per-row loop: with a
single worker, a bad row `r` aborts the call only after the outputs of all
rows before `r` have already been written to the buffer. -/
theorem claim6_in_loop_failure (d : DenseBatch) (f : PredFunc) (r : Nat) (out : Nat → FVal)
    (hbound : rowBoundCheck d.num_row = true)
    (hok : ∀ rid, rid < r → badRow d rid = false)
    (hbad : badRow d r = true) (hr : r < d.num_row) :
    (predLoop d.num_row (denseStep d f) 1 out).err = true
    ∧ (predLoop d.num_row (denseStep d f) 1 out).out =
        applyWrites (((List.range r).map fun rid =>
          (f rid (denseRowEntries d rid)).1).flatten) out := by
  have hstepok : ∀ rid, rid < r →
      denseStep d f rid cleanSlice = some (f rid (denseRowEntries d rid), cleanSlice) := by
    intro rid hrid
    rw [denseStep_clean, if_neg (by simp [hok rid hrid])]
  have hpre := runThread_clean (denseStep d f) (fun rid => f rid (denseRowEntries d rid))
    (List.range r) (fun rid hrid => hstepok rid (List.mem_range.mp hrid))
  have hbadstep : denseStep d f r cleanSlice = none := by
    rw [denseStep_clean, if_pos hbad]
  have happ := runThread_append (denseStep d f) (List.range r)
    (r :: List.range' (r + 1) (d.num_row - r - 1)) cleanSlice (by rw [hpre])
  unfold predLoop
  rw [if_pos hbound]
  have h1 : List.range 1 = [0] := rfl
  rw [h1]
  simp only [List.map_cons, List.map_nil]
  rw [staticChunk_one, range_split d.num_row r hr, happ, hpre]
  simp only [runThread, hbadstep]
  constructor
  · simp
  · simp

/-- C6 counterexample: a 2-row dense batch with finite sentinel whose second
row holds NaN — the call fails, but row 0's output has already been written
(the buffer slot changed from the initial 99 to the unit's 7), contradicting
the claim that no input-validity failure is raised after outputs are
written. -/
theorem claim6_counterexample :
    ((Predictor.mk (some ⟨some 1, none, some fun _ _ => .val 7⟩) true (some 1)
        (some (.inr fun _ _ => .val 7)) 1).predictBatchDense
      ⟨fun i => if i = 0 then .val 1 else .nan, .val 0, 2, 1⟩ 1 1 false
      (fun _ => .val 99)).error = some .loopFail
    ∧ ((Predictor.mk (some ⟨some 1, none, some fun _ _ => .val 7⟩) true (some 1)
        (some (.inr fun _ _ => .val 7)) 1).predictBatchDense
      ⟨fun i => if i = 0 then .val 1 else .nan, .val 0, 2, 1⟩ 1 1 false
      (fun _ => .val 99)).out 0 = .val 7 := by
  exact ⟨by decide, by decide⟩

/-- C1: for a multi-class unit that writes `k` values per row with
`0 < k < num_output_group`, the produced total `num_row * k` is smaller
than the expected size, every reshape precondition holds, and the call
compacts in increasing row order: slot `r*k + j` of the final buffer equals
the value the loop had previously written at slot `r*num_output_group + j`,
which is the `j`-th value row `r`'s unit call produced — so the first
`num_row * k` floats are the written values packed row-major and the
returned count is `num_row * k`.  Violating any reshape precondition is a
fatal error instead. -/
theorem claim1_reshape (b : CSRBatch) (u : (Nat → Entry) → Bool → List FVal)
    (req maxT : Int) (margin : Bool) (g k : Nat) (out : Nat → FVal)
    (hg : 1 < g) (hk0 : 0 < k) (hkg : k < g) (hnr : 0 < b.num_row)
    (hbound : rowBoundCheck b.num_row = true)
    (hn : 1 ≤ (effectiveNthread req maxT).toNat)
    (hw : ∀ rid, rid < b.num_row →
      (u (materializeCSRRow b rid cleanSlice) margin).length = k) :
    (PredictBatch_ (fun f => csrStep b f) b.num_row req maxT margin g (some (.inl u))
        (queryResultSize b.num_row g) out).error = none
    ∧ (PredictBatch_ (fun f => csrStep b f) b.num_row req maxT margin g (some (.inl u))
        (queryResultSize b.num_row g) out).ret = b.num_row * k
    ∧ (∀ r j, r < b.num_row → j < k →
        (PredictBatch_ (fun f => csrStep b f) b.num_row req maxT margin g (some (.inl u))
          (queryResultSize b.num_row g) out).out (r * k + j) =
        (predLoop b.num_row (csrStep b (mcFunc g margin u))
          (effectiveNthread req maxT).toNat out).out (r * g + j))
    ∧ (∀ r j, r < b.num_row → j < k →
        (PredictBatch_ (fun f => csrStep b f) b.num_row req maxT margin g (some (.inl u))
          (queryResultSize b.num_row g) out).out (r * k + j) =
        (u (materializeCSRRow b r cleanSlice) margin).getD j (FVal.val 0))
    ∧ (∀ (num_row2 g2 expected2 nthread2 : Nat) (step2 : StepFun) (out2 : Nat → FVal),
        (predLoop num_row2 step2 nthread2 out2).err = false →
        (predLoop num_row2 step2 nthread2 out2).total < expected2 →
        reshapeCheck num_row2 g2 (predLoop num_row2 step2 nthread2 out2).total = false →
        PredictBatchLoaded num_row2 step2 nthread2 g2 expected2 out2 =
          { out := (predLoop num_row2 step2 nthread2 out2).out, ret := 0,
            error := some .reshapeFail }) := by
  have hmk : mkPredFunc g margin (Sum.inl u) = mcFunc g margin u := by
    simp [mkPredFunc, hg]
  have hloop := predLoop_clean b.num_row (csrStep b (mcFunc g margin u))
    (fun rid => mcFunc g margin u rid (materializeCSRRow b rid cleanSlice))
    (effectiveNthread req maxT).toNat out hn
    (fun rid _ => csrStep_clean b (mcFunc g margin u) rid)
  rw [if_pos hbound] at hloop
  have hT : ((List.range b.num_row).map fun rid =>
      (mcFunc g margin u rid (materializeCSRRow b rid cleanSlice)).2).sum =
      b.num_row * k := by
    have hmc : ((List.range b.num_row).map fun rid =>
        (mcFunc g margin u rid (materializeCSRRow b rid cleanSlice)).2) =
        (List.range b.num_row).map fun _ => k := by
      refine List.map_congr_left fun rid hrid => ?_
      exact hw rid (List.mem_range.mp hrid)
    rw [hmc, sum_map_const]
  have hexp : queryResultSize b.num_row g = b.num_row * g := by
    unfold queryResultSize
    rw [Nat.max_eq_right (le_of_lt hg)]
  have hlt : b.num_row * k < b.num_row * g := by
    exact mul_lt_mul_of_pos_left hkg hnr
  have hdiv : b.num_row * k / b.num_row = k := Nat.mul_div_cancel_left k hnr
  have hmod : b.num_row * k % b.num_row = 0 := Nat.mul_mod_right b.num_row k
  have hcheck : reshapeCheck b.num_row g (b.num_row * k) = true := by
    unfold reshapeCheck
    rw [hdiv, hmod]
    simp [hg, hk0, hkg]
  have hfinal : PredictBatch_ (fun f => csrStep b f) b.num_row req maxT margin g
      (some (.inl u)) (queryResultSize b.num_row g) out =
      { out := compact b.num_row g k
          (applyWrites (((List.range b.num_row).map fun rid =>
            (mcFunc g margin u rid (materializeCSRRow b rid cleanSlice)).1).flatten) out)
        ret := b.num_row * k
        error := none } := by
    simp only [PredictBatch_, hmk, PredictBatchLoaded, hloop]
    rw [hT, hexp]
    rw [if_neg (by simp), if_pos hlt, if_pos hcheck, hdiv]
  have hWW : ((List.range b.num_row).map fun rid =>
      (mcFunc g margin u rid (materializeCSRRow b rid cleanSlice)).1).flatten =
      ((List.range b.num_row).map fun rid =>
        strideWrites (rid * g) (u (materializeCSRRow b rid cleanSlice) margin)).flatten :=
    rfl
  have hlen : ∀ rr, rr < b.num_row →
      (u (materializeCSRRow b rr cleanSlice) margin).length ≤ g :=
    fun rr hrr => le_of_lt (hw rr hrr ▸ hkg)
  refine ⟨?_, ?_, ?_, ?_, ?_⟩
  · rw [hfinal]
  · rw [hfinal]
  · intro r j hr hj
    rw [hfinal, hloop]
    exact compact_spec b.num_row g k (le_of_lt hkg) _ r j hr hj
  · intro r j hr hj
    rw [hfinal]
    show compact b.num_row g k
      (applyWrites (((List.range b.num_row).map fun rid =>
        (mcFunc g margin u rid (materializeCSRRow b rid cleanSlice)).1).flatten) out)
      (r * k + j) = _
    rw [compact_spec b.num_row g k (le_of_lt hkg) _ r j hr hj, hWW]
    exact applyWrites_strideRows (fun rid => u (materializeCSRRow b rid cleanSlice) margin)
      g b.num_row out hlen r j hr (by rw [hw r hr]; exact hj)
  · intro n2 g2 e2 nt2 st2 o2 herr hlt2 hch
    simp only [PredictBatchLoaded]
    rw [if_neg (by simp [herr]), if_pos hlt2, if_neg (by simp [hch])]

/-- C1 witness: with `num_output_group = 4`, `num_row = 3` and a unit that
writes exactly 2 values per row, the call returns 6 and the first 6 floats
are the written values row-major with no cross-row bleed. -/
theorem claim1_witness :
    (PredictBatch_ (fun f => csrStep ⟨fun _ => .val 0, fun _ => 0, fun _ => 0, 3, 1⟩ f) 3
        2 8 false 4 (some (.inl fun _ _ => [.val 30, .val 40]))
        (queryResultSize 3 4) (fun _ => .val 0)).error = none
    ∧ (PredictBatch_ (fun f => csrStep ⟨fun _ => .val 0, fun _ => 0, fun _ => 0, 3, 1⟩ f) 3
        2 8 false 4 (some (.inl fun _ _ => [.val 30, .val 40]))
        (queryResultSize 3 4) (fun _ => .val 0)).ret = 6
    ∧ (PredictBatch_ (fun f => csrStep ⟨fun _ => .val 0, fun _ => 0, fun _ => 0, 3, 1⟩ f) 3
        2 8 false 4 (some (.inl fun _ _ => [.val 30, .val 40]))
        (queryResultSize 3 4) (fun _ => .val 0)).out (2 * 2 + 1) = .val 40 := by
  have h := claim1_reshape ⟨fun _ => .val 0, fun _ => 0, fun _ => 0, 3, 1⟩
    (fun _ _ => [.val 30, .val 40]) 2 8 false 4 2 (fun _ => .val 0)
    (by decide) (by decide) (by decide) (by decide) (by decide) (by decide)
    (fun _ _ => rfl)
  exact ⟨h.1, h.2.1, by simpa using h.2.2.2.1 2 1 (by decide) (by decide)⟩

/-- C4 witness: a freshly constructed predictor rejects a batch call with
the not-loaded error and leaves the buffer untouched. -/
theorem claim4_witness :
    Predictor.init.predictBatchCSR ⟨fun _ => .val 0, fun _ => 0, fun _ => 0, 1, 1⟩
        1 1 false (fun _ => .val 3) =
      { out := fun _ => .val 3, ret := 0, error := some .notLoaded } :=
  (claim4_not_loaded ⟨fun _ => .val 0, fun _ => 0, fun _ => 0, 1, 1⟩ 1 1 false
    (fun _ => .val 3) Predictor.init).1 rfl

/-- C6 witness: on the concrete 2-row dense batch whose second row is bad,
the single-worker loop fails and its buffer holds exactly row 0's write. -/
theorem claim6_witness :
    (predLoop 2 (denseStep ⟨fun i => if i = 0 then .val 1 else .nan, .val 0, 2, 1⟩
        (singleFunc false fun _ _ => .val 7)) 1 (fun _ => .val 99)).err = true
    ∧ (predLoop 2 (denseStep ⟨fun i => if i = 0 then .val 1 else .nan, .val 0, 2, 1⟩
        (singleFunc false fun _ _ => .val 7)) 1 (fun _ => .val 99)).out =
      applyWrites (((List.range 1).map fun rid =>
        ((singleFunc false fun _ _ => .val 7) rid
          (denseRowEntries ⟨fun i => if i = 0 then .val 1 else .nan, .val 0, 2, 1⟩ rid)).1).flatten)
        (fun _ => .val 99) :=
  claim6_in_loop_failure ⟨fun i => if i = 0 then .val 1 else .nan, .val 0, 2, 1⟩
    (singleFunc false fun _ _ => .val 7) 1 (fun _ => .val 99)
    (by decide)
    (by
      intro rid hrid
      have h0 : rid = 0 := by omega
      subst h0
      decide)
    (by decide) (by decide)

end Treelite
